import Mathlib

/-!
Verification of the find-pixel-resolution core: a shallow embedding of
`src/analyzer.js` (the periodicity fitter), the grid/reconstruction code in
`src/main.js` (the `fsDownsampleSource` shader and `updateUI` grid bounds) and
`src/Unity/FindPixelResolutionCli.cs` (`ReconstructImage`), together with
theorems settling the spec claims.  Real-number arithmetic models the
JavaScript doubles / GLSL floats exactly (no rounding error is modelled);
the JavaScript `while` normalization loops are modelled by fuel-indexed
functions `normLoopA`/`normLoopB`, and the total function `normalizeOffset`
is proved to coincide with them (`normLoops_sound`, `normLoops_complete`):
its `none` value is exactly the case in which the source loops diverge.
-/

noncomputable section

open Real

/-- Result record of `calculateDFTBin` in `src/analyzer.js`: magnitude and
phase of one complex Fourier coefficient. -/
structure DFTBin where
  magnitude : ℝ
  phase : ℝ

/-- Embedding of `calculateDFTBin(signal, k)` from `src/analyzer.js`:
`sumRe/sumIm` accumulate `signal[n]·cos/sin(angleStep·n)` with
`angleStep = -2π·k/N`; the returned phase `Math.atan2(sumIm, sumRe)` is
`Complex.arg ⟨sumRe, sumIm⟩` (both have range (-π, π] and send (0,0) to 0). -/
def calculateDFTBin (signal : List ℝ) (k : ℝ) : DFTBin :=
  let N : ℝ := (signal.length : ℝ)
  let angleStep : ℝ := -2 * π * k / N
  let sumRe : ℝ := ∑ n ∈ Finset.range signal.length, signal.getD n 0 * Real.cos (angleStep * n)
  let sumIm : ℝ := ∑ n ∈ Finset.range signal.length, signal.getD n 0 * Real.sin (angleStep * n)
  { magnitude := Real.sqrt (sumRe * sumRe + sumIm * sumIm)
    phase := Complex.arg ⟨sumRe, sumIm⟩ }

/-- `totalEnergy` accumulator of `analyzePeriodicity`: the sum of the signal. -/
def totalEnergyOf (data : List ℝ) : ℝ := data.sum

/-- `minK` of `analyzePeriodicity`: `Math.floor(N/maxScale) < 1 ? 1 : ...`,
i.e. `max 1 ⌊N/maxScale⌋`.  (`maxScale = 0` is outside this integer model:
there JavaScript produces `Infinity`; every claim has `maxScale ≥ 2`.) -/
def minKOf (N maxScale : ℕ) : ℕ := max 1 (N / maxScale)

/-- `maxK` of `analyzePeriodicity`: `Math.floor(N / 2)`. -/
def maxKOf (N : ℕ) : ℕ := N / 2

/-- `mageVals[k]` of `analyzePeriodicity`: the magnitude of integer bin `k`.
The JS array caches these values; all reads are at indices inside the swept
range `[minK, maxK]`, where the cache holds exactly this value. -/
def mage (data : List ℝ) (k : ℕ) : ℝ := (calculateDFTBin data (k : ℝ)).magnitude

/-- The coarse-sweep `globalMax` accumulator: starting from `0`, take the
running maximum of `mageVals[k]` for `k ∈ [minK, maxK]`. -/
def globalMaxOf (data : List ℝ) (maxScale : ℕ) : ℝ :=
  ((List.range' (minKOf data.length maxScale)
      (maxKOf data.length + 1 - minKOf data.length maxScale)).map (mage data)).foldl max 0

open Classical in
/-- First index `k`, among `count` consecutive candidates starting at `start`,
satisfying `p` — the shape of both linear scans in `analyzePeriodicity`
(each scans upward and stops at the first hit). -/
def findFirst (p : ℕ → Prop) : ℕ → ℕ → Option ℕ
  | _, 0 => none
  | start, count + 1 => if p start then some start else findFirst p (start + 1) count

/-- The acceptance test of the peak-selection scan in `analyzePeriodicity`:
`mageVals[k] > mageVals[k-1] && mageVals[k] > mageVals[k+1]` and
`mageVals[k] > threshold`. -/
def isPeak (data : List ℝ) (threshold : ℝ) (k : ℕ) : Prop :=
  mage data k > mage data (k - 1) ∧ mage data k > mage data (k + 1) ∧ mage data k > threshold

/-- The peak-selection scan: `for (k = minK + 1; k < maxK; k++)`, accepting
the first `k` that passes `isPeak` with threshold `globalMax * 0.4`. -/
def peakChoiceK (data : List ℝ) (maxScale : ℕ) : Option ℕ :=
  findFirst (isPeak data (globalMaxOf data maxScale * 0.4))
    (minKOf data.length maxScale + 1)
    (maxKOf data.length - minKOf data.length maxScale - 1)

/-- The fallback scan: `for (k = minK; k <= maxK; k++)`, accepting the first
`k` with `mageVals[k] === globalMax`. -/
def fallbackK (data : List ℝ) (maxScale : ℕ) : Option ℕ :=
  findFirst (fun k => mage data k = globalMaxOf data maxScale)
    (minKOf data.length maxScale)
    (maxKOf data.length + 1 - minKOf data.length maxScale)

/-- The final `chosenK` of `analyzePeriodicity`: the first accepted peak with
parabolic interpolation applied when the denominator `d` is nonzero, else the
fallback global-max bin, else the initial value `-1` (reached only when both
scan ranges are empty). -/
def chosenKOf (data : List ℝ) (maxScale : ℕ) : ℝ :=
  match peakChoiceK data maxScale with
  | some k =>
      let y1 := mage data (k - 1)
      let y2 := mage data k
      let y3 := mage data (k + 1)
      let d := y1 - 2 * y2 + y3
      if d ≠ 0 then (k : ℝ) + (y1 - y3) / (2 * d) else (k : ℝ)
  | none =>
      match fallbackK data maxScale with
      | some k => (k : ℝ)
      | none => -1

open Classical in
/-- Fuel-indexed model of the first normalization loop of `analyzePeriodicity`,
`while (offset < 0) offset += scale`; `none` means the loop has not finished
within `fuel` iterations. -/
def normLoopA (s : ℝ) : ℕ → ℝ → Option ℝ
  | 0, x => if x < 0 then none else some x
  | fuel + 1, x => if x < 0 then normLoopA s fuel (x + s) else some x

open Classical in
/-- Fuel-indexed model of the second normalization loop,
`while (offset >= scale) offset -= scale`. -/
def normLoopB (s : ℝ) : ℕ → ℝ → Option ℝ
  | 0, x => if s ≤ x then none else some x
  | fuel + 1, x => if s ≤ x then normLoopB s fuel (x - s) else some x

/-- Both normalization loops in sequence, with separate fuels. -/
def normLoops (s : ℝ) (fa fb : ℕ) (x : ℝ) : Option ℝ :=
  (normLoopA s fa x).bind (normLoopB s fb)

/-- The offset normalization of `analyzePeriodicity`.  For `s > 0` the two
`while` loops terminate with the representative of `x` modulo `s` in `[0, s)`,
which is `x - s·⌊x/s⌋`; for `s ≤ 0` they diverge (`none`).  Theorems
`normLoops_sound` and `normLoops_complete` below prove this definition equal
to the fuel-indexed loop model `normLoops`. -/
def normalizeOffset (x s : ℝ) : Option ℝ :=
  if 0 < s then some (x - s * ⌊x / s⌋) else none

/-- The record returned by `analyzePeriodicity`. -/
structure AxisEstimate where
  scale : ℝ
  offset : ℝ
  confidence : ℝ

/-- Embedding of `analyzePeriodicity(data, maxScale)` from `src/analyzer.js`.
`none` models divergence of the offset-normalization `while` loops (the only
non-total behaviour of the source function); every other path returns the
record `{scale, offset, confidence}` the source returns. -/
def analyzePeriodicity (data : List ℝ) (maxScale : ℕ) : Option AxisEstimate :=
  if totalEnergyOf data < 0.0001 then some ⟨1, 0, 0⟩
  else
    let ck := chosenKOf data maxScale
    let scale := (data.length : ℝ) / ck
    let finalRes := calculateDFTBin data ck
    (normalizeOffset (-finalRes.phase * scale / (2 * π)) scale).map fun offset =>
      ⟨scale, offset, finalRes.magnitude / (totalEnergyOf data / scale)⟩

/-- An RGB triple, as read by the edge-difference shaders (alpha ignored). -/
structure RGB where
  r : ℝ
  g : ℝ
  b : ℝ

/-- One entry of the column edge signal, from `fsColDiffSource` in
`src/main.js`: for column `x`, sum over `y` of the L1 RGB difference with the
left-clamped previous column `prevX = x > 0 ? x - 1 : 0`. -/
def colDiff (img : ℕ → ℕ → RGB) (H : ℕ) (x : ℕ) : ℝ :=
  let px := if 0 < x then x - 1 else 0
  ∑ y ∈ Finset.range H,
    (|(img x y).r - (img px y).r| + |(img x y).g - (img px y).g| +
      |(img x y).b - (img px y).b|)

/-- One entry of the row edge signal, from `fsRowDiffSource` in `src/main.js`. -/
def rowDiff (img : ℕ → ℕ → RGB) (W : ℕ) (y : ℕ) : ℝ :=
  let py := if 0 < y then y - 1 else 0
  ∑ x ∈ Finset.range W,
    (|(img x y).r - (img x py).r| + |(img x y).g - (img x py).g| +
      |(img x y).b - (img x py).b|)

/-- The length-`W` column signal handed to `analyzePeriodicity` (`colData`
read back in `runAnalysis`). -/
def colSignal (img : ℕ → ℕ → RGB) (W H : ℕ) : List ℝ :=
  (List.range W).map (colDiff img H)

/-- The length-`H` row signal handed to `analyzePeriodicity` (`rowData`). -/
def rowSignal (img : ℕ → ℕ → RGB) (W H : ℕ) : List ℝ :=
  (List.range H).map (rowDiff img W)

/-- Grid-cell index of a pixel coordinate along one axis:
`Math.floor((p - offset) / scale)` (`updateUI` in `src/main.js`;
`Mathf.FloorToInt((x - ox) / sx)` in `ReconstructImage`). -/
def cellIndex (S O : ℝ) (p : ℝ) : ℤ := ⌊(p - O) / S⌋

/-- `minGridX = Math.floor((0 - offset) / scale)` from `updateUI`. -/
def minGrid (S O : ℝ) : ℤ := ⌊(0 - O) / S⌋

/-- `maxGridX = Math.floor((imgWidth - 1 - offset) / scale)` from `updateUI`. -/
def maxGrid (S O : ℝ) (W : ℕ) : ℤ := ⌊((W : ℝ) - 1 - O) / S⌋

/-- An RGBA color, as held in the GLSL shaders and the C# `Color[]` arrays. -/
structure RGBA where
  r : ℝ
  g : ℝ
  b : ℝ
  a : ℝ

/-- The GLSL `int()` cast applied to a float: truncation toward zero. -/
def glslInt (x : ℝ) : ℤ := if 0 ≤ x then ⌊x⌋ else ⌈x⌉

/-- Integer `clamp(v, lo, hi) = min(max(v, lo), hi)` (GLSL `clamp`,
`Mathf.Clamp`). -/
def clampI (v lo hi : ℤ) : ℤ := min (max v lo) hi

/-- Componentwise sum of RGBA colors over a finite index set. -/
def sumRGBA {α : Type} (s : Finset α) (f : α → RGBA) : RGBA :=
  ⟨∑ p ∈ s, (f p).r, ∑ p ∈ s, (f p).g, ∑ p ∈ s, (f p).b, ∑ p ∈ s, (f p).a⟩

/-- Componentwise division of an RGBA color by a scalar. -/
def divRGBA (c : RGBA) (n : ℝ) : RGBA := ⟨c.r / n, c.g / n, c.b / n, c.a / n⟩

/-- Embedding of the `fsDownsampleSource` fragment shader of `src/main.js`,
which produces the low-res output image.  `fragX/fragY` are the integer
output-pixel coordinates (`floor(gl_FragCoord.x)` is `fragX` because the
fragment center is `fragX + 0.5`); `gox/goy` are the `uGridOffsetX/Y`
uniforms; `img` is `texelFetch` on the source texture, `W × H` its size.
In `sampleCenterOnly` mode, and in the box mode when the sample box contains
no texel, the shader reads the texel `clamp(int(center), 0, size - 1)` —
GLSL `int()` truncation of the cell center. -/
def fsDownsampleColor (img : ℤ → ℤ → RGBA) (W H : ℕ) (sx ox sy oy gox goy : ℝ)
    (sampleCenterOnly : Bool) (fragX fragY : ℕ) : RGBA :=
  let kx : ℝ := (fragX : ℝ) + gox
  let ky : ℝ := (fragY : ℝ) + goy
  let centerX : ℝ := ox + kx * sx + sx * 0.5
  let centerY : ℝ := oy + ky * sy + sy * 0.5
  let nearest : RGBA :=
    img (clampI (glslInt centerX) 0 ((W : ℤ) - 1)) (clampI (glslInt centerY) 0 ((H : ℤ) - 1))
  if sampleCenterOnly then nearest
  else
    let rx := sx * 0.3
    let ry := sy * 0.3
    let minX : ℤ := max 0 ⌈centerX - rx⌉
    let maxX : ℤ := min ((W : ℤ) - 1) ⌊centerX + rx⌋
    let minY : ℤ := max 0 ⌈centerY - ry⌉
    let maxY : ℤ := min ((H : ℤ) - 1) ⌊centerY + ry⌋
    let box := Finset.Icc minX maxX ×ˢ Finset.Icc minY maxY
    if 0 < box.card then divRGBA (sumRGBA box fun p => img p.1 p.2) box.card
    else nearest

/-- Modelled from the spec: the nearest-pixel rule the spec states for
`sampleCenterOnly` mode, `image[clamp(round(cx), 0, W−1),
clamp(round(cy), 0, H−1)]` — rounding, where the shader truncates. -/
def specCenterOnlyColor (img : ℤ → ℤ → RGBA) (W H : ℕ) (cx cy : ℝ) : RGBA :=
  img (clampI (round cx) 0 ((W : ℤ) - 1)) (clampI (round cy) 0 ((H : ℤ) - 1))

/-- `Mathf.RoundToInt`: round to the nearest integer, ties to even ("if the
number ends in .5 so it is equally close to two integers, one even and one
odd, the even number is returned").  At a tie (fractional part exactly 1/2)
the even one of `⌊x⌋` and `⌊x⌋ + 1` is returned; off ties this is the
ordinary nearest integer, i.e. `round`.  See `csRoundToInt_eq_round` and
`csRoundToInt_ties_even`. -/
def csRoundToInt (x : ℝ) : ℤ :=
  if Int.fract x = 1 / 2 then (if 2 ∣ ⌊x⌋ then ⌊x⌋ else ⌊x⌋ + 1) else round x

/-- Per-cell color of `ReconstructImage` in
`src/Unity/FindPixelResolutionCli.cs`: box-average of the source pixels in
the radius-`0.3·scale` box around the cell center, skipping out-of-image
samples; when no sample lands in the image, fall back to the source pixel at
the rounded, clamped center (`Mathf.RoundToInt`, ties to even, then
`Mathf.Clamp`). -/
def csCellColor (src : ℤ → ℤ → RGBA) (w h : ℕ) (sx sy ox oy : ℝ)
    (gridX gridY : ℤ) : RGBA :=
  let centerX : ℝ := ox + (gridX : ℝ) * sx + sx * 0.5
  let centerY : ℝ := oy + (gridY : ℝ) * sy + sy * 0.5
  let rx := sx * 0.3
  let ry := sy * 0.3
  let xMin : ℤ := ⌈centerX - rx⌉
  let xMax : ℤ := ⌊centerX + rx⌋
  let yMin : ℤ := ⌈centerY - ry⌉
  let yMax : ℤ := ⌊centerY + ry⌋
  let box := (Finset.Icc xMin xMax ×ˢ Finset.Icc yMin yMax).filter
    (fun p => 0 ≤ p.1 ∧ p.1 < (w : ℤ) ∧ 0 ≤ p.2 ∧ p.2 < (h : ℤ))
  if 0 < box.card then divRGBA (sumRGBA box fun p => src p.1 p.2) box.card
  else src (clampI (csRoundToInt centerX) 0 ((w : ℤ) - 1))
    (clampI (csRoundToInt centerY) 0 ((h : ℤ) - 1))

/-- Grid index of pixel column `x` in `ReconstructImage`:
`Mathf.FloorToInt((x - ox) / sx)`. -/
def csGrid (s o : ℝ) (x : ℕ) : ℤ := ⌊((x : ℝ) - o) / s⌋

/-- The `minGridX` tracked by the preview pass of `ReconstructImage`: the
minimum of `csGrid` over all visited pixel columns.  The source initializes
the accumulator with `int.MaxValue`, which the first visited pixel replaces;
for `1 ≤ w` this equals a fold starting from the column-0 value. -/
def csTrackedMin (s o : ℝ) (w : ℕ) : ℤ :=
  ((List.range w).map (csGrid s o)).foldl min (csGrid s o 0)

/-- The `maxGridX` tracked by the preview pass (dually to `csTrackedMin`). -/
def csTrackedMax (s o : ℝ) (w : ℕ) : ℤ :=
  ((List.range w).map (csGrid s o)).foldl max (csGrid s o 0)

/-! ### Supporting lemmas: the linear scans -/

theorem findFirst_zero (p : ℕ → Prop) (s : ℕ) : findFirst p s 0 = none := rfl

open Classical in
theorem findFirst_succ (p : ℕ → Prop) (s n : ℕ) :
    findFirst p s (n + 1) = if p s then some s else findFirst p (s + 1) n := rfl

theorem findFirst_eq_some_iff {p : ℕ → Prop} {s n k : ℕ} :
    findFirst p s n = some k ↔
      s ≤ k ∧ k < s + n ∧ p k ∧ ∀ j, s ≤ j → j < k → ¬p j := by
  induction n generalizing s with
  | zero =>
    simp only [findFirst_zero]
    constructor
    · intro h; exact absurd h (by simp)
    · rintro ⟨h1, h2, -⟩; omega
  | succ n ih =>
    rw [findFirst_succ]
    by_cases hps : p s
    · rw [if_pos hps]
      constructor
      · intro h
        have hk : s = k := Option.some.inj h
        subst hk
        exact ⟨le_refl s, by omega, hps, fun j h1 h2 => (by omega : False).elim⟩
      · rintro ⟨h1, h2, hk, hmin⟩
        rcases eq_or_lt_of_le h1 with rfl | hlt
        · rfl
        · exact absurd hps (hmin s (le_refl s) hlt)
    · rw [if_neg hps, ih]
      constructor
      · rintro ⟨h1, h2, hk, hmin⟩
        refine ⟨by omega, by omega, hk, fun j hj1 hj2 => ?_⟩
        rcases eq_or_lt_of_le hj1 with rfl | hlt
        · exact hps
        · exact hmin j hlt hj2
      · rintro ⟨h1, h2, hk, hmin⟩
        have hsk : s ≠ k := by rintro rfl; exact hps hk
        exact ⟨by omega, by omega, hk, fun j hj1 hj2 => hmin j (by omega) hj2⟩

theorem findFirst_eq_none_iff {p : ℕ → Prop} {s n : ℕ} :
    findFirst p s n = none ↔ ∀ j, s ≤ j → j < s + n → ¬p j := by
  induction n generalizing s with
  | zero => simp [findFirst_zero]; intro j h1 h2; omega
  | succ n ih =>
    rw [findFirst_succ]
    by_cases hps : p s
    · rw [if_pos hps]
      simp only [reduceCtorEq, false_iff, not_forall]
      exact ⟨s, le_refl s, by omega, not_not_intro hps⟩
    · rw [if_neg hps, ih]
      constructor
      · intro h j hj1 hj2
        rcases eq_or_lt_of_le hj1 with rfl | hlt
        · exact hps
        · exact h j hlt (by omega)
      · intro h j hj1 hj2
        exact h j (by omega) (by omega)

theorem findFirst_isSome {p : ℕ → Prop} {s n : ℕ}
    (h : ∃ j, s ≤ j ∧ j < s + n ∧ p j) : ∃ k, findFirst p s n = some k := by
  cases heq : findFirst p s n with
  | some k => exact ⟨k, rfl⟩
  | none =>
    rw [findFirst_eq_none_iff] at heq
    obtain ⟨j, h1, h2, hj⟩ := h
    exact absurd hj (heq j h1 h2)

/-! ### Supporting lemmas: running max / min folds -/

theorem foldl_max_init_le {α : Type} [LinearOrder α] (L : List α) (a : α) :
    a ≤ L.foldl max a := by
  induction L generalizing a with
  | nil => exact le_refl a
  | cons b t ih => exact le_trans (le_max_left a b) (ih (max a b))

theorem le_foldl_max {α : Type} [LinearOrder α] (L : List α) (a : α) :
    ∀ x ∈ L, x ≤ L.foldl max a := by
  induction L generalizing a with
  | nil => intro x hx; simp at hx
  | cons b t ih =>
    intro x hx
    rcases List.mem_cons.mp hx with rfl | hxt
    · exact le_trans (le_max_right a x) (foldl_max_init_le t (max a x))
    · exact ih (max a b) x hxt

theorem foldl_max_mem {α : Type} [LinearOrder α] (L : List α) (a : α) :
    L.foldl max a = a ∨ L.foldl max a ∈ L := by
  induction L generalizing a with
  | nil => exact Or.inl rfl
  | cons b t ih =>
    rcases ih (max a b) with h | h
    · rcases max_cases a b with ⟨he, -⟩ | ⟨he, -⟩
      · exact Or.inl (by rw [List.foldl_cons, h, he])
      · exact Or.inr (by rw [List.foldl_cons, h, he]; exact List.mem_cons_self b t)
    · exact Or.inr (List.mem_cons_of_mem b h)

theorem foldl_max_le {α : Type} [LinearOrder α] (L : List α) (a b : α)
    (hab : a ≤ b) (hub : ∀ x ∈ L, x ≤ b) : L.foldl max a ≤ b := by
  induction L generalizing a with
  | nil => exact hab
  | cons c t ih =>
    exact ih (max a c) (max_le hab (hub c (List.mem_cons_self c t)))
      (fun x hx => hub x (List.mem_cons_of_mem c hx))

theorem foldl_max_eq {α : Type} [LinearOrder α] (L : List α) (a b : α)
    (hmem : b ∈ L) (hub : ∀ x ∈ L, x ≤ b) (hab : a ≤ b) : L.foldl max a = b :=
  le_antisymm (foldl_max_le L a b hab hub) (le_foldl_max L a b hmem)

theorem foldl_min_of_le {α : Type} [LinearOrder α] (L : List α) (a : α)
    (h : ∀ x ∈ L, a ≤ x) : L.foldl min a = a := by
  induction L with
  | nil => rfl
  | cons b t ih =>
    have hab : min a b = a := min_eq_left (h b (List.mem_cons_self b t))
    rw [List.foldl_cons, hab]
    exact ih (fun x hx => h x (List.mem_cons_of_mem b hx))

/-! ### Supporting lemmas: the normalization loops

`normalizeOffset` is a closed form; these lemmas prove it equal to the
fuel-indexed loops `normLoopA`/`normLoopB`, including divergence for a
non-positive scale (`normLoops_sound` forces `0 < s` whenever the loops
finish). -/

open Classical in
theorem normLoopA_zero (s x : ℝ) :
    normLoopA s 0 x = if x < 0 then none else some x := rfl

open Classical in
theorem normLoopA_succ (s : ℝ) (f : ℕ) (x : ℝ) :
    normLoopA s (f + 1) x = if x < 0 then normLoopA s f (x + s) else some x := rfl

open Classical in
theorem normLoopB_zero (s x : ℝ) :
    normLoopB s 0 x = if s ≤ x then none else some x := rfl

open Classical in
theorem normLoopB_succ (s : ℝ) (f : ℕ) (x : ℝ) :
    normLoopB s (f + 1) x = if s ≤ x then normLoopB s f (x - s) else some x := rfl

theorem normLoopA_sound {s : ℝ} {f : ℕ} {x y : ℝ} (h : normLoopA s f x = some y) :
    0 ≤ y ∧ ∃ n : ℕ, y = x + n * s := by
  induction f generalizing x with
  | zero =>
    rw [normLoopA_zero] at h
    by_cases hx : x < 0
    · rw [if_pos hx] at h; exact absurd h (by simp)
    · rw [if_neg hx] at h
      obtain rfl := Option.some.inj h
      exact ⟨le_of_not_lt hx, 0, by simp⟩
  | succ f ih =>
    rw [normLoopA_succ] at h
    by_cases hx : x < 0
    · rw [if_pos hx] at h
      obtain ⟨hy, n, hn⟩ := ih h
      exact ⟨hy, n + 1, by rw [hn]; push_cast; ring⟩
    · rw [if_neg hx] at h
      obtain rfl := Option.some.inj h
      exact ⟨le_of_not_lt hx, 0, by simp⟩

theorem normLoopB_sound {s : ℝ} {f : ℕ} {x z : ℝ} (h : normLoopB s f x = some z) :
    z < s ∧ (0 ≤ x → 0 ≤ z) ∧ ∃ n : ℕ, z = x - n * s := by
  induction f generalizing x with
  | zero =>
    rw [normLoopB_zero] at h
    by_cases hx : s ≤ x
    · rw [if_pos hx] at h; exact absurd h (by simp)
    · rw [if_neg hx] at h
      obtain rfl := Option.some.inj h
      exact ⟨lt_of_not_le hx, fun h0 => h0, 0, by simp⟩
  | succ f ih =>
    rw [normLoopB_succ] at h
    by_cases hx : s ≤ x
    · rw [if_pos hx] at h
      obtain ⟨h1, h2, n, hn⟩ := ih h
      exact ⟨h1, fun _ => h2 (sub_nonneg.mpr hx), n + 1, by rw [hn]; push_cast; ring⟩
    · rw [if_neg hx] at h
      obtain rfl := Option.some.inj h
      exact ⟨lt_of_not_le hx, fun h0 => h0, 0, by simp⟩

/-- If both `while` loops finish with value `z`, the scale is positive and
`z` is what `normalizeOffset` returns. -/
theorem normLoops_sound {s : ℝ} {fa fb : ℕ} {x z : ℝ}
    (h : normLoops s fa fb x = some z) : normalizeOffset x s = some z := by
  obtain ⟨y, hy, hyz⟩ := Option.bind_eq_some.mp h
  obtain ⟨hy0, n, hn⟩ := normLoopA_sound hy
  obtain ⟨hz1, hz2, m, hm⟩ := normLoopB_sound hyz
  have hz0 : 0 ≤ z := hz2 hy0
  have hs : 0 < s := lt_of_le_of_lt hz0 hz1
  have hsne : s ≠ 0 := ne_of_gt hs
  have hj : z = x + ((n : ℝ) - (m : ℝ)) * s := by rw [hm, hn]; ring
  have hxs : x / s = z / s - ((n : ℝ) - (m : ℝ)) := by
    field_simp [hj]
    ring
  have hzs0 : 0 ≤ z / s := div_nonneg hz0 (le_of_lt hs)
  have hzs1 : z / s < 1 := (div_lt_one hs).mpr hz1
  have hfloor : ⌊x / s⌋ = -((n : ℤ) - (m : ℤ)) := by
    rw [Int.floor_eq_iff]
    constructor
    · push_cast
      rw [hxs]
      linarith
    · push_cast
      rw [hxs]
      linarith
  rw [normalizeOffset, if_pos hs, hfloor]
  congr 1
  push_cast
  rw [hj]
  ring

theorem normLoopA_total {s : ℝ} (_hs : 0 < s) :
    ∀ (c : ℕ) (x : ℝ), -((c : ℝ) * s) ≤ x → ∃ y, normLoopA s c x = some y := by
  intro c
  induction c with
  | zero =>
    intro x hx
    rw [normLoopA_zero, if_neg (not_lt.mpr (by simpa using hx))]
    exact ⟨x, rfl⟩
  | succ c ih =>
    intro x hx
    by_cases hneg : x < 0
    · rw [normLoopA_succ, if_pos hneg]
      apply ih
      push_cast at hx ⊢
      linarith
    · rw [normLoopA_succ, if_neg hneg]
      exact ⟨x, rfl⟩

theorem normLoopB_total {s : ℝ} (_hs : 0 < s) :
    ∀ (c : ℕ) (x : ℝ), x < ((c : ℝ) + 1) * s → ∃ z, normLoopB s c x = some z := by
  intro c
  induction c with
  | zero =>
    intro x hx
    rw [normLoopB_zero, if_neg (not_le.mpr (by push_cast at hx; linarith))]
    exact ⟨x, rfl⟩
  | succ c ih =>
    intro x hx
    by_cases hge : s ≤ x
    · rw [normLoopB_succ, if_pos hge]
      apply ih
      push_cast at hx ⊢
      linarith
    · rw [normLoopB_succ, if_neg hge]
      exact ⟨x, rfl⟩

/-- With a positive scale the two `while` loops terminate (for suitable fuel)
and produce exactly the value of `normalizeOffset`. -/
theorem normLoops_complete {s : ℝ} (hs : 0 < s) (x : ℝ) :
    ∃ fa fb, normLoops s fa fb x = some (x - s * ⌊x / s⌋) := by
  have hca : -((((⌈-x / s⌉.toNat : ℕ) : ℝ)) * s) ≤ x := by
    have h1 : (-x) / s ≤ ((⌈-x / s⌉.toNat : ℕ) : ℝ) := by
      calc (-x) / s ≤ (⌈-x / s⌉ : ℝ) := Int.le_ceil _
        _ ≤ ((⌈-x / s⌉.toNat : ℕ) : ℝ) := by exact_mod_cast Int.self_le_toNat _
    have := (div_le_iff₀ hs).mp h1
    linarith
  obtain ⟨y, hy⟩ := normLoopA_total hs ⌈-x / s⌉.toNat x hca
  have hy0 : 0 ≤ y := (normLoopA_sound hy).1
  have hcb : y < (((⌈y / s⌉.toNat : ℕ) : ℝ) + 1) * s := by
    have h1 : y / s ≤ ((⌈y / s⌉.toNat : ℕ) : ℝ) := by
      calc y / s ≤ (⌈y / s⌉ : ℝ) := Int.le_ceil _
        _ ≤ ((⌈y / s⌉.toNat : ℕ) : ℝ) := by exact_mod_cast Int.self_le_toNat _
    have := (div_le_iff₀ hs).mp h1
    nlinarith
  obtain ⟨z, hz⟩ := normLoopB_total hs ⌈y / s⌉.toNat y hcb
  have hloops : normLoops s ⌈-x / s⌉.toNat ⌈y / s⌉.toNat x = some z := by
    rw [normLoops, hy, Option.some_bind, hz]
  have := normLoops_sound hloops
  rw [normalizeOffset, if_pos hs] at this
  obtain rfl := Option.some.inj this
  exact ⟨_, _, hloops⟩

/-! ### Supporting lemmas: the fitter's scans and chosen bin -/

theorem mage_nonneg (data : List ℝ) (k : ℕ) : 0 ≤ mage data k :=
  Real.sqrt_nonneg _

/-- Each swept magnitude is bounded by the running `globalMax`. -/
theorem mage_le_globalMax (data : List ℝ) (maxScale : ℕ) (k : ℕ)
    (h1 : minKOf data.length maxScale ≤ k) (h2 : k ≤ maxKOf data.length) :
    mage data k ≤ globalMaxOf data maxScale := by
  apply le_foldl_max
  apply List.mem_map_of_mem
  rw [List.mem_range'_1]
  omega

/-- With a nonempty sweep range, the global maximum is attained at some
swept bin (so the fallback scan always finds one). -/
theorem globalMax_attained (data : List ℝ) (maxScale : ℕ)
    (h : minKOf data.length maxScale ≤ maxKOf data.length) :
    ∃ k, minKOf data.length maxScale ≤ k ∧ k ≤ maxKOf data.length ∧
      mage data k = globalMaxOf data maxScale := by
  rcases foldl_max_mem ((List.range' (minKOf data.length maxScale)
      (maxKOf data.length + 1 - minKOf data.length maxScale)).map (mage data)) 0 with h0 | hmem
  · refine ⟨minKOf data.length maxScale, le_refl _, h, le_antisymm ?_ ?_⟩
    · exact mage_le_globalMax data maxScale _ (le_refl _) h
    · rw [globalMaxOf, h0]; exact mage_nonneg data _
  · obtain ⟨j, hj, hval⟩ := List.mem_map.mp hmem
    rw [List.mem_range'_1] at hj
    exact ⟨j, hj.1, by omega, hval⟩

theorem fallbackK_isSome (data : List ℝ) (maxScale : ℕ)
    (h : minKOf data.length maxScale ≤ maxKOf data.length) :
    ∃ k, fallbackK data maxScale = some k := by
  obtain ⟨j, h1, h2, hval⟩ := globalMax_attained data maxScale h
  exact findFirst_isSome ⟨j, h1, by omega, hval⟩

/-- Characterization of a successful peak scan: the accepted `k` is strictly
inside `(minK, maxK)`, passes the three-way test, and is the first such. -/
theorem peakChoiceK_spec {data : List ℝ} {maxScale k : ℕ}
    (hp : peakChoiceK data maxScale = some k) :
    minKOf data.length maxScale < k ∧ k < maxKOf data.length ∧
      isPeak data (globalMaxOf data maxScale * 0.4) k ∧
      ∀ j, minKOf data.length maxScale < j → j < k →
        ¬isPeak data (globalMaxOf data maxScale * 0.4) j := by
  obtain ⟨h1, h2, h3, h4⟩ := findFirst_eq_some_iff.mp hp
  exact ⟨by omega, by omega, h3, fun j hj1 hj2 => h4 j (by omega) hj2⟩

/-- In the peak case the parabolic denominator is strictly negative and the
interpolation moves `chosenK` by strictly less than half a bin. -/
theorem chosenK_peak_close {data : List ℝ} {maxScale k : ℕ}
    (hp : peakChoiceK data maxScale = some k) :
    mage data (k - 1) - 2 * mage data k + mage data (k + 1) < 0 ∧
      |chosenKOf data maxScale - (k : ℝ)| < 1 / 2 := by
  obtain ⟨-, -, ⟨hgt1, hgt2, -⟩, -⟩ := peakChoiceK_spec hp
  set y1 := mage data (k - 1) with hy1
  set y2 := mage data k with hy2
  set y3 := mage data (k + 1) with hy3
  have hd : y1 - 2 * y2 + y3 < 0 := by linarith
  have habs : |y1 - y3| < -(y1 - 2 * y2 + y3) := by
    rw [abs_lt]
    constructor <;> linarith
  refine ⟨hd, ?_⟩
  rw [chosenKOf, hp]
  simp only
  rw [if_pos (ne_of_lt hd)]
  have hq : ((k : ℝ) + (y1 - y3) / (2 * (y1 - 2 * y2 + y3))) - (k : ℝ)
      = (y1 - y3) / (2 * (y1 - 2 * y2 + y3)) := by ring
  rw [hq, abs_div, abs_of_neg (by linarith : 2 * (y1 - 2 * y2 + y3) < 0),
    div_lt_iff₀ (by linarith)]
  linarith

/-- In the peak case `chosenK` stays strictly between `minK + 1/2` and
`maxK - 1/2`. -/
theorem chosenK_peak_bounds {data : List ℝ} {maxScale k : ℕ}
    (hp : peakChoiceK data maxScale = some k) :
    (minKOf data.length maxScale : ℝ) + 1 / 2 < chosenKOf data maxScale ∧
      chosenKOf data maxScale < (maxKOf data.length : ℝ) - 1 / 2 := by
  obtain ⟨hlo, hhi, -, -⟩ := peakChoiceK_spec hp
  obtain ⟨-, hclose⟩ := chosenK_peak_close hp
  rw [abs_lt] at hclose
  have hlo' : (minKOf data.length maxScale : ℝ) + 1 ≤ (k : ℝ) := by
    exact_mod_cast hlo
  have hhi' : (k : ℝ) + 1 ≤ (maxKOf data.length : ℝ) := by
    exact_mod_cast hhi
  constructor <;> linarith

/-- Whenever the sweep range is nonempty, the chosen bin is positive. -/
theorem chosenK_pos (data : List ℝ) (maxScale : ℕ)
    (h : minKOf data.length maxScale ≤ maxKOf data.length) :
    0 < chosenKOf data maxScale := by
  cases hp : peakChoiceK data maxScale with
  | some k =>
    obtain ⟨hlo, -⟩ := chosenK_peak_bounds hp
    have : (0 : ℝ) ≤ (minKOf data.length maxScale : ℝ) := Nat.cast_nonneg _
    linarith
  | none =>
    obtain ⟨k, hk⟩ := fallbackK_isSome data maxScale h
    have hbound := findFirst_eq_some_iff.mp hk
    rw [chosenKOf, hp, hk]
    show (0 : ℝ) < (k : ℝ)
    have : 1 ≤ k := le_trans (le_max_left 1 _) hbound.1
    exact_mod_cast Nat.lt_of_lt_of_le Nat.zero_lt_one this

theorem minK_le_maxK {N maxScale : ℕ} (hN : 2 ≤ N) (hM : 2 ≤ maxScale) :
    minKOf N maxScale ≤ maxKOf N := by
  rw [minKOf, maxKOf]
  apply max_le
  · omega
  · exact Nat.div_le_div_left hM (by omega)

/-- In the energetic branch, when the chosen bin is positive the fitter
returns a record whose scale is `N / chosenK`. -/
theorem analyzePeriodicity_main {data : List ℝ} {maxScale : ℕ}
    (hE : ¬totalEnergyOf data < 0.0001) (hck : 0 < chosenKOf data maxScale)
    (hN : 0 < data.length) :
    ∃ est, analyzePeriodicity data maxScale = some est ∧
      est.scale = (data.length : ℝ) / chosenKOf data maxScale := by
  have hsc : 0 < (data.length : ℝ) / chosenKOf data maxScale :=
    div_pos (by exact_mod_cast hN) hck
  simp only [analyzePeriodicity, if_neg hE]
  rw [normalizeOffset, if_pos hsc]
  exact ⟨_, rfl, rfl⟩

/-- Claim C4 (confirmed).  Every estimate the fitter returns satisfies
`0 ≤ offset < scale`: the degenerate branch returns `{1, 0, 0}` and the main
branch normalizes the phase-derived offset into `[0, scale)` (and returns at
all only when the normalization loops terminate, i.e. `scale > 0`). -/
theorem offset_range (data : List ℝ) (maxScale : ℕ) (est : AxisEstimate)
    (h : analyzePeriodicity data maxScale = some est) :
    0 ≤ est.offset ∧ est.offset < est.scale := by
  by_cases hE : totalEnergyOf data < 0.0001
  · rw [analyzePeriodicity, if_pos hE] at h
    obtain rfl := Option.some.inj h
    norm_num
  · simp only [analyzePeriodicity, if_neg hE, Option.map_eq_some'] at h
    obtain ⟨off, hoff, hest⟩ := h
    rw [normalizeOffset] at hoff
    set s := (data.length : ℝ) / chosenKOf data maxScale with hs
    by_cases hpos : 0 < s
    · rw [if_pos hpos] at hoff
      obtain rfl := Option.some.inj hoff
      subst hest
      set x := -(calculateDFTBin data (chosenKOf data maxScale)).phase * s / (2 * π) with hx
      constructor
      · show 0 ≤ x - s * ⌊x / s⌋
        have h1 : (⌊x / s⌋ : ℝ) ≤ x / s := Int.floor_le _
        have h2 : s * (⌊x / s⌋ : ℝ) ≤ s * (x / s) :=
          mul_le_mul_of_nonneg_left h1 (le_of_lt hpos)
        rw [mul_div_cancel₀ x (ne_of_gt hpos)] at h2
        linarith
      · show x - s * ⌊x / s⌋ < s
        have h1 : x / s < (⌊x / s⌋ : ℝ) + 1 := Int.lt_floor_add_one _
        have h2 : s * (x / s) < s * ((⌊x / s⌋ : ℝ) + 1) :=
          mul_lt_mul_of_pos_left h1 hpos
        rw [mul_div_cancel₀ x (ne_of_gt hpos)] at h2
        have h3 : s * ((⌊x / s⌋ : ℝ) + 1) = s * (⌊x / s⌋ : ℝ) + s := by ring
        linarith [h2, h3.le]
    · rw [if_neg hpos] at hoff
      exact absurd hoff (by simp)

/-- Witness for C4 at a concrete input: the flat signal `[0]` returns
`{1, 0, 0}`, whose offset lies in `[0, scale)`. -/
theorem offset_range_witness :
    0 ≤ (⟨1, 0, 0⟩ : AxisEstimate).offset ∧
      (⟨1, 0, 0⟩ : AxisEstimate).offset < (⟨1, 0, 0⟩ : AxisEstimate).scale :=
  offset_range [0] 5 ⟨1, 0, 0⟩
    (by rw [analyzePeriodicity, if_pos (by norm_num [totalEnergyOf])])

/-- Counterexample for C3.  On the length-1 signal `[1]` (total energy `1`)
with `maxScale = 16`, both scan ranges are empty, `chosenK` keeps its initial
value `-1`, the derived scale is `-1 < 0`, and the offset-normalization
`while` loops never terminate: the fit does not return.  (`none` is exactly
loop divergence by `normLoops_sound` / `normLoops_complete`.) -/
theorem fit_total_cex : analyzePeriodicity [1] 16 = none := by
  have hck : chosenKOf [1] 16 = -1 := by
    have hpeak : peakChoiceK [1] 16 = none := rfl
    have hfall : fallbackK [1] 16 = none := rfl
    rw [chosenKOf, hpeak, hfall]
  have hE : ¬totalEnergyOf [1] < 0.0001 := by norm_num [totalEnergyOf]
  simp only [analyzePeriodicity, if_neg hE, hck]
  rw [normalizeOffset, if_neg (by norm_num)]
  rfl

/-- Claim C3, amended (corrected).  For every signal of length at least 2 and
every integer `maxScale ≥ 2` — the shapes produced by the callers, which pass
edge signals of an image with `W, H ≥ 2` — the fitter terminates and returns
an estimate.  (For shorter signals with energy ≥ 10⁻⁴ it diverges, see
`fit_total_cex`.) -/
theorem fit_total_amended (data : List ℝ) (maxScale : ℕ)
    (hN : 2 ≤ data.length) (hM : 2 ≤ maxScale) :
    (analyzePeriodicity data maxScale).isSome := by
  by_cases hE : totalEnergyOf data < 0.0001
  · rw [analyzePeriodicity, if_pos hE]
    rfl
  · obtain ⟨est, hsome, -⟩ := analyzePeriodicity_main hE
      (chosenK_pos data maxScale (minK_le_maxK hN hM)) (by omega)
    rw [hsome]
    rfl

/-- Witness for the amended C3 at the concrete signal `[1, 1]`, `maxScale = 2`. -/
theorem fit_total_amended_witness : (analyzePeriodicity [1, 1] 2).isSome :=
  fit_total_amended [1, 1] 2 (by simp) (le_refl 2)

/-- Claim C5 (confirmed).  When the peak scan accepts a bin, it is the
smallest `k` strictly between `minK` and `maxK` with `m[k] > m[k−1]`,
`m[k] > m[k+1]` and `m[k] > 0.4·globalMax`; no smaller `k` in that range
satisfies all three. -/
theorem first_peak_selected (data : List ℝ) (maxScale k : ℕ)
    (h : peakChoiceK data maxScale = some k) :
    minKOf data.length maxScale < k ∧ k < maxKOf data.length ∧
      (mage data k > mage data (k - 1) ∧ mage data k > mage data (k + 1) ∧
        mage data k > 0.4 * globalMaxOf data maxScale) ∧
      ∀ j, minKOf data.length maxScale < j → j < k →
        ¬(mage data j > mage data (j - 1) ∧ mage data j > mage data (j + 1) ∧
          mage data j > 0.4 * globalMaxOf data maxScale) := by
  obtain ⟨h1, h2, h3, h4⟩ := peakChoiceK_spec h
  rw [isPeak, mul_comm] at h3
  refine ⟨h1, h2, h3, fun j hj1 hj2 hcon => ?_⟩
  exact h4 j hj1 hj2 (by rw [isPeak, mul_comm]; exact hcon)

/-- Claim C9 (confirmed, exact-real arithmetic).  At an accepted peak the
parabolic denominator `d = m[k−1] − 2m[k] + m[k+1]` is strictly negative, the
refined bin moves by strictly less than half a bin, and both the refined bin
and the derived scale `N / k_refined` are strictly positive. -/
theorem peak_refinement_sound (data : List ℝ) (maxScale k : ℕ)
    (h : peakChoiceK data maxScale = some k) :
    mage data (k - 1) - 2 * mage data k + mage data (k + 1) < 0 ∧
      |chosenKOf data maxScale - (k : ℝ)| < 1 / 2 ∧
      0 < chosenKOf data maxScale ∧
      0 < (data.length : ℝ) / chosenKOf data maxScale := by
  obtain ⟨hd, hclose⟩ := chosenK_peak_close h
  obtain ⟨hlo, -⟩ := chosenK_peak_bounds h
  have hm0 : (0 : ℝ) ≤ (minKOf data.length maxScale : ℝ) := Nat.cast_nonneg _
  have hpos : 0 < chosenKOf data maxScale := by linarith
  obtain ⟨-, h2, -, -⟩ := peakChoiceK_spec h
  rw [maxKOf] at h2
  have hN : 0 < data.length := by omega
  exact ⟨hd, hclose, hpos, div_pos (by exact_mod_cast hN) hpos⟩

/-- Claim C6 (confirmed).  If no bin passes the peak-plus-threshold test, the
fitter takes the smallest bin in `[minK, maxK]` whose magnitude equals the
global maximum, applies no refinement, and returns scale `N / k` for that
integer `k`. -/
theorem fallback_no_refine (data : List ℝ) (maxScale : ℕ)
    (hN : 2 ≤ data.length) (hM : 2 ≤ maxScale)
    (hE : ¬totalEnergyOf data < 0.0001)
    (hnp : peakChoiceK data maxScale = none) :
    ∃ k, fallbackK data maxScale = some k ∧
      minKOf data.length maxScale ≤ k ∧ k ≤ maxKOf data.length ∧
      mage data k = globalMaxOf data maxScale ∧
      (∀ j, minKOf data.length maxScale ≤ j → j < k →
        mage data j ≠ globalMaxOf data maxScale) ∧
      chosenKOf data maxScale = (k : ℝ) ∧
      ∃ est, analyzePeriodicity data maxScale = some est ∧
        est.scale = (data.length : ℝ) / (k : ℝ) := by
  have hmm := minK_le_maxK hN hM
  obtain ⟨k, hk⟩ := fallbackK_isSome data maxScale hmm
  obtain ⟨hk1, hk2, hk3, hk4⟩ := findFirst_eq_some_iff.mp hk
  have hck : chosenKOf data maxScale = (k : ℝ) := by rw [chosenKOf, hnp, hk]
  have hkpos : 0 < chosenKOf data maxScale := by
    rw [hck]
    have h1 : 1 ≤ k := le_trans (le_max_left 1 _) hk1
    exact_mod_cast Nat.lt_of_lt_of_le Nat.zero_lt_one h1
  obtain ⟨est, hsome, hscale⟩ := analyzePeriodicity_main hE hkpos (by omega)
  exact ⟨k, hk, hk1, by omega, hk3, fun j hj1 hj2 => hk4 j hj1 hj2, hck,
    est, hsome, by rw [hscale, hck]⟩

/-- Witness for C6 at the concrete signal `[1, 0, 0, 0]` with `maxScale = 4`
(there the peak scan range `minK+1 ≤ k ≤ maxK−1` is empty, so no peak is
accepted and the fallback runs). -/
theorem fallback_no_refine_witness :
    ∃ k, fallbackK [1, 0, 0, 0] 4 = some k ∧
      minKOf (List.length [1, 0, 0, 0]) 4 ≤ k ∧ k ≤ maxKOf (List.length [1, 0, 0, 0]) ∧
      mage [1, 0, 0, 0] k = globalMaxOf [1, 0, 0, 0] 4 ∧
      (∀ j, minKOf (List.length [1, 0, 0, 0]) 4 ≤ j → j < k →
        mage [1, 0, 0, 0] j ≠ globalMaxOf [1, 0, 0, 0] 4) ∧
      chosenKOf [1, 0, 0, 0] 4 = (k : ℝ) ∧
      ∃ est, analyzePeriodicity [1, 0, 0, 0] 4 = some est ∧
        est.scale = (List.length [1, 0, 0, 0] : ℝ) / (k : ℝ) :=
  fallback_no_refine [1, 0, 0, 0] 4 (by simp) (by norm_num)
    (by norm_num [totalEnergyOf]) rfl

/-- Claim C1, amended (corrected).  When the energy test passes and a peak is
accepted, the returned scale satisfies `2 ≤ scale < N / (minK + 1/2)`.  The
spec's upper bound `scale ≤ maxScale` can fail: the parabolic refinement may
move the bin below `N / maxScale` by up to half a bin (see
`scale_range_cex`), which exceeds `maxScale` exactly when `N / maxScale` has
fractional part above `1/2`. -/
theorem scale_range_amended (data : List ℝ) (maxScale k : ℕ)
    (hE : ¬totalEnergyOf data < 0.0001)
    (hp : peakChoiceK data maxScale = some k) :
    ∃ est, analyzePeriodicity data maxScale = some est ∧
      2 ≤ est.scale ∧
      est.scale < (data.length : ℝ) / ((minKOf data.length maxScale : ℝ) + 1 / 2) := by
  obtain ⟨hlo, hhi⟩ := chosenK_peak_bounds hp
  have hm0 : (0 : ℝ) ≤ (minKOf data.length maxScale : ℝ) := Nat.cast_nonneg _
  have hckpos : 0 < chosenKOf data maxScale := by linarith
  obtain ⟨-, h2, -, -⟩ := peakChoiceK_spec hp
  rw [maxKOf] at h2
  have hN : 0 < data.length := by omega
  have hNr : (0 : ℝ) < (data.length : ℝ) := by exact_mod_cast hN
  obtain ⟨est, hsome, hscale⟩ := analyzePeriodicity_main hE hckpos hN
  have hmaxle : (maxKOf data.length : ℝ) ≤ (data.length : ℝ) / 2 := by
    rw [maxKOf]
    exact_mod_cast Nat.cast_div_le
  refine ⟨est, hsome, ?_, ?_⟩
  · rw [hscale, le_div_iff₀ hckpos]
    linarith
  · rw [hscale]
    exact div_lt_div_of_pos_left hNr (by linarith) hlo

/-! ### Concrete DFT evaluations for the counterexample signal -/

/-- Concrete nonnegative length-8 test signal used as counterexample and
witness input: its DFT magnitudes at bins 2, 3, 4 are 18, 20, 2, so with
`maxScale = 3` the scan accepts bin 3 and parabolic refinement moves the bin
to `13/5 < 8/3`, driving the scale above `maxScale`. -/
def sig8 : List ℝ := [20, 5, 1, 5, 0, 5, 1, 5]

theorem sig8_len : sig8.length = 8 := rfl

theorem sig8_dft2_re :
    (∑ x ∈ Finset.range 8, sig8.getD x 0 * Real.cos (-(π/2) * ↑x)) = 18 := by
  have hc3 : Real.cos (π / 2 * 3) = 0 := by
    rw [show π / 2 * 3 = 2 * π - π / 2 by ring, Real.cos_two_pi_sub, Real.cos_pi_div_two]
  have hc5 : Real.cos (π / 2 * 5) = 0 := by
    rw [show π / 2 * 5 = π / 2 + 2 * π by ring, Real.cos_add_two_pi, Real.cos_pi_div_two]
  have hc6 : Real.cos (π / 2 * 6) = -1 := by
    rw [show π / 2 * 6 = π + 2 * π by ring, Real.cos_add_two_pi, Real.cos_pi]
  have hc7 : Real.cos (π / 2 * 7) = 0 := by
    rw [show π / 2 * 7 = (2 * π - π / 2) + 2 * π by ring, Real.cos_add_two_pi,
      Real.cos_two_pi_sub, Real.cos_pi_div_two]
  rw [Finset.sum_range_succ, Finset.sum_range_succ, Finset.sum_range_succ,
    Finset.sum_range_succ, Finset.sum_range_succ, Finset.sum_range_succ,
    Finset.sum_range_succ, Finset.sum_range_succ, Finset.sum_range_zero]
  norm_num [sig8]
  rw [hc3, hc5, hc6, hc7]
  norm_num

theorem sig8_dft2_im :
    (∑ x ∈ Finset.range 8, sig8.getD x 0 * Real.sin (-(π/2) * ↑x)) = 0 := by
  have hs3 : Real.sin (π / 2 * 3) = -1 := by
    rw [show π / 2 * 3 = 2 * π - π / 2 by ring, Real.sin_two_pi_sub, Real.sin_pi_div_two]
  have hs5 : Real.sin (π / 2 * 5) = 1 := by
    rw [show π / 2 * 5 = π / 2 + 2 * π by ring, Real.sin_add_two_pi, Real.sin_pi_div_two]
  have hs6 : Real.sin (π / 2 * 6) = 0 := by
    rw [show π / 2 * 6 = π + 2 * π by ring, Real.sin_add_two_pi, Real.sin_pi]
  have hs7 : Real.sin (π / 2 * 7) = -1 := by
    rw [show π / 2 * 7 = (2 * π - π / 2) + 2 * π by ring, Real.sin_add_two_pi,
      Real.sin_two_pi_sub, Real.sin_pi_div_two]
  rw [Finset.sum_range_succ, Finset.sum_range_succ, Finset.sum_range_succ,
    Finset.sum_range_succ, Finset.sum_range_succ, Finset.sum_range_succ,
    Finset.sum_range_succ, Finset.sum_range_succ, Finset.sum_range_zero]
  norm_num [sig8]
  rw [hs3, hs5, hs6, hs7]
  norm_num

theorem sig8_dft3_re :
    (∑ x ∈ Finset.range 8, sig8.getD x 0 * Real.cos (-(π/4*3) * ↑x)) = 20 := by
  have hc1 : Real.cos (π / 4 * 3) = -(Real.sqrt 2 / 2) := by
    rw [show π / 4 * 3 = π - π / 4 by ring, Real.cos_pi_sub, Real.cos_pi_div_four]
  have hc2 : Real.cos (π / 4 * 3 * 2) = 0 := by
    rw [show π / 4 * 3 * 2 = 2 * π - π / 2 by ring, Real.cos_two_pi_sub, Real.cos_pi_div_two]
  have hc3 : Real.cos (π / 4 * 3 * 3) = Real.sqrt 2 / 2 := by
    rw [show π / 4 * 3 * 3 = π / 4 + 2 * π by ring, Real.cos_add_two_pi, Real.cos_pi_div_four]
  have hc5 : Real.cos (π / 4 * 3 * 5) = Real.sqrt 2 / 2 := by
    rw [show π / 4 * 3 * 5 = (2 * π - π / 4) + 2 * π by ring, Real.cos_add_two_pi,
      Real.cos_two_pi_sub, Real.cos_pi_div_four]
  have hc6 : Real.cos (π / 4 * 3 * 6) = 0 := by
    rw [show π / 4 * 3 * 6 = (π / 2 + 2 * π) + 2 * π by ring, Real.cos_add_two_pi,
      Real.cos_add_two_pi, Real.cos_pi_div_two]
  have hc7 : Real.cos (π / 4 * 3 * 7) = -(Real.sqrt 2 / 2) := by
    rw [show π / 4 * 3 * 7 = ((π - -(π / 4)) + 2 * π) + 2 * π by ring, Real.cos_add_two_pi,
      Real.cos_add_two_pi, Real.cos_pi_sub, Real.cos_neg, Real.cos_pi_div_four]
  rw [Finset.sum_range_succ, Finset.sum_range_succ, Finset.sum_range_succ,
    Finset.sum_range_succ, Finset.sum_range_succ, Finset.sum_range_succ,
    Finset.sum_range_succ, Finset.sum_range_succ, Finset.sum_range_zero]
  norm_num [sig8]
  rw [hc1, hc2, hc3, hc5, hc6, hc7]
  ring

theorem sig8_dft3_im :
    (∑ x ∈ Finset.range 8, sig8.getD x 0 * Real.sin (-(π/4*3) * ↑x)) = 0 := by
  have hs1 : Real.sin (π / 4 * 3) = Real.sqrt 2 / 2 := by
    rw [show π / 4 * 3 = π - π / 4 by ring, Real.sin_pi_sub, Real.sin_pi_div_four]
  have hs2 : Real.sin (π / 4 * 3 * 2) = -1 := by
    rw [show π / 4 * 3 * 2 = 2 * π - π / 2 by ring, Real.sin_two_pi_sub, Real.sin_pi_div_two]
  have hs3 : Real.sin (π / 4 * 3 * 3) = Real.sqrt 2 / 2 := by
    rw [show π / 4 * 3 * 3 = π / 4 + 2 * π by ring, Real.sin_add_two_pi, Real.sin_pi_div_four]
  have hs5 : Real.sin (π / 4 * 3 * 5) = -(Real.sqrt 2 / 2) := by
    rw [show π / 4 * 3 * 5 = (2 * π - π / 4) + 2 * π by ring, Real.sin_add_two_pi,
      Real.sin_two_pi_sub, Real.sin_pi_div_four]
  have hs6 : Real.sin (π / 4 * 3 * 6) = 1 := by
    rw [show π / 4 * 3 * 6 = (π / 2 + 2 * π) + 2 * π by ring, Real.sin_add_two_pi,
      Real.sin_add_two_pi, Real.sin_pi_div_two]
  have hs7 : Real.sin (π / 4 * 3 * 7) = -(Real.sqrt 2 / 2) := by
    rw [show π / 4 * 3 * 7 = ((π - -(π / 4)) + 2 * π) + 2 * π by ring, Real.sin_add_two_pi,
      Real.sin_add_two_pi, Real.sin_pi_sub, Real.sin_neg, Real.sin_pi_div_four]
  rw [Finset.sum_range_succ, Finset.sum_range_succ, Finset.sum_range_succ,
    Finset.sum_range_succ, Finset.sum_range_succ, Finset.sum_range_succ,
    Finset.sum_range_succ, Finset.sum_range_succ, Finset.sum_range_zero]
  norm_num [sig8]
  rw [hs1, hs2, hs3, hs5, hs6, hs7]
  ring

theorem sig8_dft4_re :
    (∑ x ∈ Finset.range 8, sig8.getD x 0 * Real.cos (-π * ↑x)) = 2 := by
  have hc2 : Real.cos (π * 2) = 1 := by
    rw [show π * 2 = 2 * π by ring, Real.cos_two_pi]
  have hc3 : Real.cos (π * 3) = -1 := by
    rw [show π * 3 = π + 2 * π by ring, Real.cos_add_two_pi, Real.cos_pi]
  have hc5 : Real.cos (π * 5) = -1 := by
    rw [show π * 5 = (π + 2 * π) + 2 * π by ring, Real.cos_add_two_pi,
      Real.cos_add_two_pi, Real.cos_pi]
  have hc6 : Real.cos (π * 6) = 1 := by
    rw [show π * 6 = (2 * π + 2 * π) + 2 * π by ring, Real.cos_add_two_pi,
      Real.cos_add_two_pi, Real.cos_two_pi]
  have hc7 : Real.cos (π * 7) = -1 := by
    rw [show π * 7 = ((π + 2 * π) + 2 * π) + 2 * π by ring, Real.cos_add_two_pi,
      Real.cos_add_two_pi, Real.cos_add_two_pi, Real.cos_pi]
  rw [Finset.sum_range_succ, Finset.sum_range_succ, Finset.sum_range_succ,
    Finset.sum_range_succ, Finset.sum_range_succ, Finset.sum_range_succ,
    Finset.sum_range_succ, Finset.sum_range_succ, Finset.sum_range_zero]
  norm_num [sig8]
  rw [hc2, hc3, hc5, hc6, hc7]
  norm_num

theorem sig8_dft4_im :
    (∑ x ∈ Finset.range 8, sig8.getD x 0 * Real.sin (-π * ↑x)) = 0 := by
  have hs : ∀ m : ℤ, Real.sin (π * (m : ℝ)) = 0 := fun m => by
    rw [show π * (m : ℝ) = ((m : ℤ) : ℝ) * π by ring, Real.sin_int_mul_pi]
  have h2 : Real.sin (π * 2) = 0 := by exact_mod_cast hs 2
  have h3 : Real.sin (π * 3) = 0 := by exact_mod_cast hs 3
  have h5 : Real.sin (π * 5) = 0 := by exact_mod_cast hs 5
  have h6 : Real.sin (π * 6) = 0 := by exact_mod_cast hs 6
  have h7 : Real.sin (π * 7) = 0 := by exact_mod_cast hs 7
  rw [Finset.sum_range_succ, Finset.sum_range_succ, Finset.sum_range_succ,
    Finset.sum_range_succ, Finset.sum_range_succ, Finset.sum_range_succ,
    Finset.sum_range_succ, Finset.sum_range_succ, Finset.sum_range_zero]
  norm_num [sig8]
  rw [h2, h3, h5, h6, h7]
  norm_num

theorem sig8_mage2 : mage sig8 2 = 18 := by
  rw [mage, calculateDFTBin]
  simp only [sig8_len]
  rw [show (-2 * π * ((2:ℕ):ℝ) / ((8:ℕ):ℝ)) = -(π/2) from by push_cast; ring]
  rw [sig8_dft2_re, sig8_dft2_im]
  rw [show (18:ℝ) * 18 + 0 * 0 = 18^2 by norm_num]
  exact Real.sqrt_sq (by norm_num)

theorem sig8_mage3 : mage sig8 3 = 20 := by
  rw [mage, calculateDFTBin]
  simp only [sig8_len]
  rw [show (-2 * π * ((3:ℕ):ℝ) / ((8:ℕ):ℝ)) = -(π/4*3) from by push_cast; ring]
  rw [sig8_dft3_re, sig8_dft3_im]
  rw [show (20:ℝ) * 20 + 0 * 0 = 20^2 by norm_num]
  exact Real.sqrt_sq (by norm_num)

theorem sig8_mage4 : mage sig8 4 = 2 := by
  rw [mage, calculateDFTBin]
  simp only [sig8_len]
  rw [show (-2 * π * ((4:ℕ):ℝ) / ((8:ℕ):ℝ)) = -π from by push_cast; ring]
  rw [sig8_dft4_re, sig8_dft4_im]
  rw [show (2:ℝ) * 2 + 0 * 0 = 2^2 by norm_num]
  exact Real.sqrt_sq (by norm_num)

theorem sig8_globalMax : globalMaxOf sig8 3 = 20 := by
  rw [globalMaxOf]
  simp only [sig8_len]
  rw [show List.range' (minKOf 8 3) (maxKOf 8 + 1 - minKOf 8 3) = [2, 3, 4] from rfl]
  simp only [List.map, List.foldl]
  rw [sig8_mage2, sig8_mage3, sig8_mage4]
  rw [max_eq_right (by norm_num : (0:ℝ) ≤ 18), max_eq_right (by norm_num : (18:ℝ) ≤ 20),
    max_eq_left (by norm_num : (2:ℝ) ≤ 20)]

theorem sig8_peak : peakChoiceK sig8 3 = some 3 := by
  have hmin : minKOf sig8.length 3 = 2 := rfl
  have hmax : maxKOf sig8.length = 4 := rfl
  rw [peakChoiceK]
  apply findFirst_eq_some_iff.mpr
  rw [hmin, hmax]
  refine ⟨by norm_num, by norm_num, ?_, fun j hj1 hj2 => (by omega : False).elim⟩
  rw [isPeak, sig8_globalMax]
  norm_num [sig8_mage2, sig8_mage3, sig8_mage4]

theorem sig8_chosenK : chosenKOf sig8 3 = 13 / 5 := by
  rw [chosenKOf, sig8_peak]
  simp only
  rw [show (3:ℕ) - 1 = 2 from rfl, show (3:ℕ) + 1 = 4 from rfl]
  rw [sig8_mage2, sig8_mage3, sig8_mage4]
  rw [if_pos (by norm_num : (18:ℝ) - 2 * 20 + 2 ≠ 0)]
  norm_num

theorem sig8_energy : totalEnergyOf sig8 = 42 := by
  norm_num [totalEnergyOf, sig8]

/-- Counterexample for C1 as stated.  For `sig8` (total energy 42 ≥ 10⁻⁴)
and `maxScale = 3 ≥ 2`, the peak scan accepts bin 3, yet the returned scale
is `40/13 > 3 = maxScale`: parabolic refinement moves the chosen bin to
`13/5`, below `N/maxScale = 8/3`. -/
theorem scale_range_cex :
    0.0001 ≤ totalEnergyOf sig8 ∧ (2 : ℕ) ≤ 3 ∧ peakChoiceK sig8 3 = some 3 ∧
      Option.map AxisEstimate.scale (analyzePeriodicity sig8 3) = some (40 / 13) ∧
      ¬((40 / 13 : ℝ) ≤ 3) := by
  have hE : ¬totalEnergyOf sig8 < 0.0001 := by rw [sig8_energy]; norm_num
  have hckpos : 0 < chosenKOf sig8 3 := by rw [sig8_chosenK]; norm_num
  obtain ⟨est, hsome, hscale⟩ := analyzePeriodicity_main hE hckpos (by simp [sig8])
  refine ⟨by rw [sig8_energy]; norm_num, by norm_num, sig8_peak, ?_, by norm_num⟩
  rw [hsome, Option.map_some']
  rw [hscale, sig8_chosenK, sig8_len]
  norm_num

/-- Witness for the amended C1 at `sig8`, `maxScale = 3`. -/
theorem scale_range_amended_witness :
    ∃ est, analyzePeriodicity sig8 3 = some est ∧ 2 ≤ est.scale ∧
      est.scale < (sig8.length : ℝ) / ((minKOf sig8.length 3 : ℝ) + 1 / 2) :=
  scale_range_amended sig8 3 3 (by rw [sig8_energy]; norm_num) sig8_peak

/-- Witness for C5 at `sig8`, `maxScale = 3`, accepted bin 3. -/
theorem first_peak_selected_witness :
    minKOf sig8.length 3 < 3 ∧ 3 < maxKOf sig8.length ∧
      (mage sig8 3 > mage sig8 (3 - 1) ∧ mage sig8 3 > mage sig8 (3 + 1) ∧
        mage sig8 3 > 0.4 * globalMaxOf sig8 3) ∧
      ∀ j, minKOf sig8.length 3 < j → j < 3 →
        ¬(mage sig8 j > mage sig8 (j - 1) ∧ mage sig8 j > mage sig8 (j + 1) ∧
          mage sig8 j > 0.4 * globalMaxOf sig8 3) :=
  first_peak_selected sig8 3 3 sig8_peak

/-- Witness for C9 at `sig8`, `maxScale = 3`, accepted bin 3. -/
theorem peak_refinement_sound_witness :
    mage sig8 (3 - 1) - 2 * mage sig8 3 + mage sig8 (3 + 1) < 0 ∧
      |chosenKOf sig8 3 - (3 : ℝ)| < 1 / 2 ∧
      0 < chosenKOf sig8 3 ∧
      0 < (sig8.length : ℝ) / chosenKOf sig8 3 :=
  peak_refinement_sound sig8 3 3 sig8_peak



/-! ### Claims C7, C8, C10 -/

/-- Claim C7 (confirmed).  A signal with total energy below 10⁻⁴ makes the
fitter return exactly `{scale = 1, offset = 0, confidence = 0}`; a
constant-color image has identically-zero edge signals on both axes
(each difference is `|c − c| = 0`), so both axes yield that record. -/
theorem flat_image_unit (data : List ℝ) (maxScale : ℕ) (img : ℕ → ℕ → RGB)
    (c : RGB) (W H : ℕ)
    (hE : totalEnergyOf data < 0.0001) (hc : ∀ x y, img x y = c) :
    analyzePeriodicity data maxScale = some ⟨1, 0, 0⟩ ∧
      (∀ x, colDiff img H x = 0) ∧ (∀ y, rowDiff img W y = 0) ∧
      analyzePeriodicity (colSignal img W H) maxScale = some ⟨1, 0, 0⟩ ∧
      analyzePeriodicity (rowSignal img W H) maxScale = some ⟨1, 0, 0⟩ := by
  have hcol : ∀ x, colDiff img H x = 0 := by
    intro x
    simp only [colDiff]
    apply Finset.sum_eq_zero
    intro y _
    simp only [hc]
    simp
  have hrow : ∀ y, rowDiff img W y = 0 := by
    intro y
    simp only [rowDiff]
    apply Finset.sum_eq_zero
    intro x _
    simp only [hc]
    simp
  have hcole : totalEnergyOf (colSignal img W H) < 0.0001 := by
    rw [totalEnergyOf, colSignal]
    rw [List.sum_eq_zero]
    · norm_num
    · intro v hv
      obtain ⟨x, -, rfl⟩ := List.mem_map.mp hv
      exact hcol x
  have hrowe : totalEnergyOf (rowSignal img W H) < 0.0001 := by
    rw [totalEnergyOf, rowSignal]
    rw [List.sum_eq_zero]
    · norm_num
    · intro v hv
      obtain ⟨y, -, rfl⟩ := List.mem_map.mp hv
      exact hrow y
  exact ⟨by rw [analyzePeriodicity, if_pos hE], hcol, hrow,
    by rw [analyzePeriodicity, if_pos hcole], by rw [analyzePeriodicity, if_pos hrowe]⟩

/-- Witness for C7: the signal `[0]` and the constant half-gray 2×2 image. -/
theorem flat_image_unit_witness :
    analyzePeriodicity [0] 7 = some ⟨1, 0, 0⟩ ∧
      (∀ x, colDiff (fun _ _ => (⟨1/2, 1/2, 1/2⟩ : RGB)) 2 x = 0) ∧
      (∀ y, rowDiff (fun _ _ => (⟨1/2, 1/2, 1/2⟩ : RGB)) 2 y = 0) ∧
      analyzePeriodicity (colSignal (fun _ _ => (⟨1/2, 1/2, 1/2⟩ : RGB)) 2 2) 7 =
        some ⟨1, 0, 0⟩ ∧
      analyzePeriodicity (rowSignal (fun _ _ => (⟨1/2, 1/2, 1/2⟩ : RGB)) 2 2) 7 =
        some ⟨1, 0, 0⟩ :=
  flat_image_unit [0] 7 _ ⟨1/2, 1/2, 1/2⟩ 2 2 (by norm_num [totalEnergyOf])
    (fun _ _ => rfl)

/-- Claim C8 (confirmed).  With `Sx, Sy ≥ 1`, every in-image pixel's cell
index lies in the inclusive bounds `[minGrid, maxGrid]` derived from the
image size. -/
theorem grid_coverage (Sx Ox Sy Oy : ℝ) (W H px py : ℕ)
    (hSx : 1 ≤ Sx) (hSy : 1 ≤ Sy) (hpx : px < W) (hpy : py < H) :
    minGrid Sx Ox ≤ cellIndex Sx Ox px ∧ cellIndex Sx Ox px ≤ maxGrid Sx Ox W ∧
      minGrid Sy Oy ≤ cellIndex Sy Oy py ∧ cellIndex Sy Oy py ≤ maxGrid Sy Oy H := by
  have key : ∀ (S O : ℝ) (n p : ℕ), 1 ≤ S → p < n →
      minGrid S O ≤ cellIndex S O p ∧ cellIndex S O p ≤ maxGrid S O n := by
    intro S O n p hS hp
    have hS0 : (0 : ℝ) < S := lt_of_lt_of_le one_pos hS
    have hp1 : (p : ℝ) ≤ (n : ℝ) - 1 := by
      have : (p : ℝ) + 1 ≤ (n : ℝ) := by exact_mod_cast hp
      linarith
    constructor
    · apply Int.floor_le_floor
      apply div_le_div_of_nonneg_right ?_ hS0.le
      have : (0 : ℝ) ≤ (p : ℝ) := Nat.cast_nonneg p
      linarith
    · apply Int.floor_le_floor
      apply div_le_div_of_nonneg_right ?_ hS0.le
      linarith
  obtain ⟨hx1, hx2⟩ := key Sx Ox W px hSx hpx
  obtain ⟨hy1, hy2⟩ := key Sy Oy H py hSy hpy
  exact ⟨hx1, hx2, hy1, hy2⟩

/-- Witness for C8 at concrete grid parameters and pixel. -/
theorem grid_coverage_witness :
    minGrid 2 0.5 ≤ cellIndex 2 0.5 3 ∧ cellIndex 2 0.5 3 ≤ maxGrid 2 0.5 10 ∧
      minGrid 3 (-0.25) ≤ cellIndex 3 (-0.25) 4 ∧
      cellIndex 3 (-0.25) 4 ≤ maxGrid 3 (-0.25) 8 :=
  grid_coverage 2 0.5 3 (-0.25) 10 8 3 4 (by norm_num) (by norm_num)
    (by norm_num) (by norm_num)

theorem csGrid_mono (s o : ℝ) (hs : 1 ≤ s) {x y : ℕ} (hxy : x ≤ y) :
    csGrid s o x ≤ csGrid s o y := by
  have hs0 : (0 : ℝ) < s := lt_of_lt_of_le one_pos hs
  apply Int.floor_le_floor
  apply div_le_div_of_nonneg_right ?_ hs0.le
  have : (x : ℝ) ≤ (y : ℝ) := by exact_mod_cast hxy
  linarith

/-- With `s ≥ 1` the per-pixel grid index increases by at most one per
pixel column. -/
theorem csGrid_step (s o : ℝ) (hs : 1 ≤ s) (x : ℕ) :
    csGrid s o (x + 1) ≤ csGrid s o x + 1 := by
  have hs0 : (0 : ℝ) < s := lt_of_lt_of_le one_pos hs
  rw [csGrid, csGrid]
  have h1 : (((x + 1 : ℕ) : ℝ) - o) / s ≤ ((x : ℝ) - o) / s + 1 := by
    rw [div_add' _ _ _ (ne_of_gt hs0)]
    apply div_le_div_of_nonneg_right ?_ hs0.le
    push_cast
    linarith
  calc ⌊(((x + 1 : ℕ) : ℝ) - o) / s⌋ ≤ ⌊((x : ℝ) - o) / s + 1⌋ := Int.floor_le_floor h1
    _ = ⌊((x : ℝ) - o) / s⌋ + 1 := Int.floor_add_one _

/-- Discrete intermediate-value property: a monotone integer sequence with
unit steps attains every value between two of its terms. -/
theorem int_ivt (f : ℕ → ℤ) (_hmono : ∀ i j, i ≤ j → f i ≤ f j)
    (hstep : ∀ i, f (i + 1) ≤ f i + 1) (a b : ℕ) (hab : a ≤ b) (v : ℤ)
    (h1 : f a ≤ v) : v ≤ f b → ∃ x, a ≤ x ∧ x ≤ b ∧ f x = v := by
  induction b, hab using Nat.le_induction with
  | base => exact fun h2 => ⟨a, le_refl a, le_refl a, le_antisymm h1 h2⟩
  | succ b hab ih =>
    intro h2
    by_cases hv : v ≤ f b
    · obtain ⟨x, hx1, hx2, hx3⟩ := ih hv
      exact ⟨x, hx1, by omega, hx3⟩
    · push_neg at hv
      have hfb1 : f (b + 1) ≤ f b + 1 := hstep b
      exact ⟨b + 1, by omega, le_refl _, by omega⟩

theorem csTrackedMin_eq (s o : ℝ) (w : ℕ) (hs : 1 ≤ s) :
    csTrackedMin s o w = csGrid s o 0 := by
  rw [csTrackedMin]
  apply foldl_min_of_le
  intro v hv
  obtain ⟨x, -, rfl⟩ := List.mem_map.mp hv
  exact csGrid_mono s o hs (Nat.zero_le x)

theorem csTrackedMax_eq (s o : ℝ) (w : ℕ) (hs : 1 ≤ s) (hw : 1 ≤ w) :
    csTrackedMax s o w = csGrid s o (w - 1) := by
  rw [csTrackedMax]
  apply foldl_max_eq
  · apply List.mem_map_of_mem
    rw [List.mem_range]
    omega
  · intro v hv
    obtain ⟨x, hx, rfl⟩ := List.mem_map.mp hv
    rw [List.mem_range] at hx
    exact csGrid_mono s o hs (by omega)
  · exact csGrid_mono s o hs (Nat.zero_le _)

/-- Claim C10 (confirmed).  With `sx, sy` clamped to at least 1 beforehand
and a nonempty image, every cell index inside the tracked bounds
`[minGridX, maxGridX] × [minGridY, maxGridY]` equals `(gridX(x), gridY(y))`
of some visited pixel `(x, y)`, whose visit caches the cell color — so the
`Color.black` fallback of the low-res pass is unreachable. -/
theorem lowres_cells_visited (sx sy ox oy : ℝ) (w h : ℕ)
    (hsx : 1 ≤ sx) (hsy : 1 ≤ sy) (hw : 1 ≤ w) (hh : 1 ≤ h) (gv gw : ℤ)
    (h1 : csTrackedMin sx ox w ≤ gv) (h2 : gv ≤ csTrackedMax sx ox w)
    (h3 : csTrackedMin sy oy h ≤ gw) (h4 : gw ≤ csTrackedMax sy oy h) :
    ∃ x y, x < w ∧ y < h ∧ csGrid sx ox x = gv ∧ csGrid sy oy y = gw := by
  rw [csTrackedMin_eq sx ox w hsx] at h1
  rw [csTrackedMax_eq sx ox w hsx hw] at h2
  rw [csTrackedMin_eq sy oy h hsy] at h3
  rw [csTrackedMax_eq sy oy h hsy hh] at h4
  obtain ⟨x, -, hx2, hx3⟩ := int_ivt (csGrid sx ox)
    (fun i j hij => csGrid_mono sx ox hsx hij) (csGrid_step sx ox hsx)
    0 (w - 1) (Nat.zero_le _) gv h1 h2
  obtain ⟨y, -, hy2, hy3⟩ := int_ivt (csGrid sy oy)
    (fun i j hij => csGrid_mono sy oy hsy hij) (csGrid_step sy oy hsy)
    0 (h - 1) (Nat.zero_le _) gw h3 h4
  exact ⟨x, y, by omega, by omega, hx3, hy3⟩

/-- Witness for C10: unit grid on a 2×2 image, cell `(0, 0)`. -/
theorem lowres_cells_visited_witness :
    ∃ x y, x < 2 ∧ y < 2 ∧ csGrid 1 0 x = 0 ∧ csGrid 1 0 y = 0 :=
  lowres_cells_visited 1 1 0 0 2 2 (le_refl 1) (le_refl 1) (by norm_num)
    (by norm_num) 0 0
    (by rw [csTrackedMin_eq 1 0 2 (le_refl 1), csGrid]; norm_num)
    (by rw [csTrackedMax_eq 1 0 2 (le_refl 1) (by norm_num), csGrid]; norm_num)
    (by rw [csTrackedMin_eq 1 0 2 (le_refl 1), csGrid]; norm_num)
    (by rw [csTrackedMax_eq 1 0 2 (le_refl 1) (by norm_num), csGrid]; norm_num)



/-! ### Claim C2 -/

/-- Test image for the C2 counterexample: the red/green channels encode the
pixel coordinates. -/
def cimgC2 : ℤ → ℤ → RGBA := fun x y => ⟨(x : ℝ), (y : ℝ), 0, 1⟩

/-- Off exact-half centers `Mathf.RoundToInt` is ordinary rounding. -/
theorem csRoundToInt_eq_round {x : ℝ} (h : Int.fract x ≠ 1 / 2) :
    csRoundToInt x = round x := if_neg h

/-- At exact-half inputs `csRoundToInt` returns the even neighbor, as
`Mathf.RoundToInt` does (`4.5 → 4`, `−9.5 → −10`), where Mathlib's `round`
rounds half up (`4.5 → 5`, `−9.5 → −9`). -/
theorem csRoundToInt_ties_even :
    csRoundToInt (9 / 2) = 4 ∧ csRoundToInt (-19 / 2) = -10 ∧
      round (9 / 2 : ℝ) = 5 ∧ round (-19 / 2 : ℝ) = -9 := by
  have h1 : ⌊(9 / 2 : ℝ)⌋ = 4 := by
    rw [Int.floor_eq_iff]
    norm_num
  have h2 : ⌊(-19 / 2 : ℝ)⌋ = -10 := by
    rw [Int.floor_eq_iff]
    norm_num
  refine ⟨?_, ?_, ?_, ?_⟩
  · rw [csRoundToInt, if_pos (by rw [Int.fract, h1]; norm_num), h1,
      if_pos (by decide : (2 : ℤ) ∣ 4)]
  · rw [csRoundToInt, if_pos (by rw [Int.fract, h2]; norm_num), h2,
      if_pos (by decide : (2 : ℤ) ∣ -10)]
  · rw [round_eq, show (9 / 2 : ℝ) + 1 / 2 = 5 by norm_num]
    rw [Int.floor_eq_iff]
    norm_num
  · rw [round_eq, show (-19 / 2 : ℝ) + 1 / 2 = -9 by norm_num]
    rw [Int.floor_eq_iff]
    norm_num

/-- Claim C2, amended (corrected).  In `sampleCenterOnly` mode the browser
low-res shader reads the texel `clamp(int(center), 0, size−1)` — GLSL `int()`
truncation of the cell center, not rounding — and its empty-box fallback does
the same; rounding happens only in the C# preview's empty-box fallback, and
there it is `Mathf.RoundToInt`, nearest with ties to even. -/
theorem center_sampling_amended (img src : ℤ → ℤ → RGBA) (W H w h : ℕ)
    (sx ox sy oy gox goy csx csy cox coy : ℝ) (fragX fragY : ℕ)
    (gridX gridY : ℤ) :
    (fsDownsampleColor img W H sx ox sy oy gox goy true fragX fragY =
      img (clampI (glslInt (ox + ((fragX : ℝ) + gox) * sx + sx * 0.5)) 0 ((W : ℤ) - 1))
        (clampI (glslInt (oy + ((fragY : ℝ) + goy) * sy + sy * 0.5)) 0 ((H : ℤ) - 1))) ∧
    ((Finset.Icc (max 0 ⌈(ox + ((fragX : ℝ) + gox) * sx + sx * 0.5) - sx * 0.3⌉)
        (min ((W : ℤ) - 1) ⌊(ox + ((fragX : ℝ) + gox) * sx + sx * 0.5) + sx * 0.3⌋) ×ˢ
      Finset.Icc (max 0 ⌈(oy + ((fragY : ℝ) + goy) * sy + sy * 0.5) - sy * 0.3⌉)
        (min ((H : ℤ) - 1) ⌊(oy + ((fragY : ℝ) + goy) * sy + sy * 0.5) + sy * 0.3⌋)) = ∅ →
      fsDownsampleColor img W H sx ox sy oy gox goy false fragX fragY =
        img (clampI (glslInt (ox + ((fragX : ℝ) + gox) * sx + sx * 0.5)) 0 ((W : ℤ) - 1))
          (clampI (glslInt (oy + ((fragY : ℝ) + goy) * sy + sy * 0.5)) 0 ((H : ℤ) - 1))) ∧
    ((Finset.Icc ⌈(cox + (gridX : ℝ) * csx + csx * 0.5) - csx * 0.3⌉
        ⌊(cox + (gridX : ℝ) * csx + csx * 0.5) + csx * 0.3⌋ ×ˢ
      Finset.Icc ⌈(coy + (gridY : ℝ) * csy + csy * 0.5) - csy * 0.3⌉
        ⌊(coy + (gridY : ℝ) * csy + csy * 0.5) + csy * 0.3⌋).filter
        (fun p => 0 ≤ p.1 ∧ p.1 < (w : ℤ) ∧ 0 ≤ p.2 ∧ p.2 < (h : ℤ)) = ∅ →
      csCellColor src w h csx csy cox coy gridX gridY =
        src (clampI (csRoundToInt (cox + (gridX : ℝ) * csx + csx * 0.5)) 0 ((w : ℤ) - 1))
          (clampI (csRoundToInt (coy + (gridY : ℝ) * csy + csy * 0.5)) 0 ((h : ℤ) - 1))) := by
  refine ⟨rfl, fun hempty => ?_, fun hempty => ?_⟩
  · simp only [fsDownsampleColor, Bool.false_eq_true, if_false]
    rw [hempty]
    simp
  · simp only [csCellColor]
    rw [hempty]
    simp

/-- Witness for the amended C2 at concrete parameters (the shader part at a
4×4 image with scale 3.5, and the C# fallback part at a cell whose sample box
lies fully outside the image). -/
theorem center_sampling_amended_witness :
    fsDownsampleColor cimgC2 4 4 3.5 0 3.5 0 0 0 true 0 0 =
      cimgC2 (clampI (glslInt (0 + (((0 : ℕ) : ℝ) + 0) * 3.5 + 3.5 * 0.5)) 0 (((4 : ℕ) : ℤ) - 1))
        (clampI (glslInt (0 + (((0 : ℕ) : ℝ) + 0) * 3.5 + 3.5 * 0.5)) 0 (((4 : ℕ) : ℤ) - 1)) ∧
      csCellColor cimgC2 4 4 1 1 0 0 (-10) (-10) =
        cimgC2 (clampI (csRoundToInt (0 + ((-10 : ℤ) : ℝ) * 1 + 1 * 0.5)) 0 (((4 : ℕ) : ℤ) - 1))
          (clampI (csRoundToInt (0 + ((-10 : ℤ) : ℝ) * 1 + 1 * 0.5)) 0 (((4 : ℕ) : ℤ) - 1)) := by
  have h := center_sampling_amended cimgC2 cimgC2 4 4 4 4 3.5 0 3.5 0 0 0 1 1 0 0 0 0 (-10) (-10)
  refine ⟨h.1, h.2.2 ?_⟩
  rw [Finset.filter_eq_empty_iff]
  rintro ⟨px, py⟩ hp
  rw [Finset.mem_product, Finset.mem_Icc, Finset.mem_Icc] at hp
  have hx : px ≤ ⌊(0 + ((-10 : ℤ) : ℝ) * 1 + 1 * 0.5) + 1 * 0.3⌋ := hp.1.2
  have hneg : ⌊(0 + ((-10 : ℤ) : ℝ) * 1 + 1 * 0.5) + 1 * 0.3⌋ < 0 := by
    rw [Int.floor_lt]
    push_cast
    norm_num
  rintro ⟨hp0, -⟩
  omega

/-- Counterexample for C2 as stated.  At a 4×4 image with scale 3.5 and zero
offset, cell (0,0) has center 1.75; the shader's center-only lookup truncates
(`int(1.75) = 1`) while the spec's rule rounds (`round(1.75) = 2`), and the
two pixels of `cimgC2` differ. -/
theorem center_sampling_cex :
    fsDownsampleColor cimgC2 4 4 3.5 0 3.5 0 0 0 true 0 0 ≠
      specCenterOnlyColor cimgC2 4 4 1.75 1.75 := by
  have hfloor : ⌊(7 / 4 : ℝ)⌋ = 1 := by
    rw [Int.floor_eq_iff]
    norm_num
  have hL : fsDownsampleColor cimgC2 4 4 3.5 0 3.5 0 0 0 true 0 0 = cimgC2 1 1 := by
    simp only [fsDownsampleColor]
    norm_num
    rw [glslInt, if_pos (by norm_num : (0 : ℝ) ≤ 7 / 4), hfloor]
    norm_num [clampI]
  have hround : round (1.75 : ℝ) = 2 := by
    rw [round_eq, Int.floor_eq_iff]
    norm_num
  have hR : specCenterOnlyColor cimgC2 4 4 1.75 1.75 = cimgC2 2 2 := by
    rw [specCenterOnlyColor, hround]
    rw [show clampI 2 0 (((4 : ℕ) : ℤ) - 1) = 2 from by rw [clampI]; decide]
  rw [hL, hR]
  intro hcon
  have := congrArg RGBA.r hcon
  simp only [cimgC2] at this
  norm_num at this

end
